import Mathlib

/-!
Verification of the tag-transformation core of the `onetagger` repository:
the operation pipeline of `bulk_tag_utility.py` (`BulkTagUtility.apply_operations_to_file`,
`preview_changes`, `UndoManager`) and the composite-comment codec of
`quick_tag_actions.py` (`QuickActions.get_tag_list` / `set_tag_list`).

Python strings are modelled as `List Char`; Python dicts of tag fields as
functions `TagField → Option (List Char)` (`none` models an absent key).
In-place mutation of `audio_file.tags` is modelled by explicit state passing:
each operation is a function from the pre-call value of `tags` to its
post-call value.
-/

/-- Python string model. -/
abbrev PyStr := List Char

/-- Whitespace test used by Python `strip`/`lstrip`/`rstrip` (ASCII subset). -/
def isSpc (c : Char) : Bool := c.isWhitespace

/-- Python `str.lstrip()`. -/
def pyLstrip (s : PyStr) : PyStr := s.dropWhile isSpc

/-- Python `str.rstrip()`. -/
def pyRstrip (s : PyStr) : PyStr := (s.reverse.dropWhile isSpc).reverse

/-- Python `str.strip()`. -/
def pyStrip (s : PyStr) : PyStr := pyRstrip (pyLstrip s)

/-- Prefix test: `isPre p s` is true when `p` is a prefix of `s`. -/
def isPre : PyStr → PyStr → Bool
  | [], _ => true
  | _ :: _, [] => false
  | a :: as, b :: bs => a == b && isPre as bs

/-- Substring test, modelling Python's `pat in s` for a non-empty `pat`. -/
def containsSeq (pat : PyStr) : PyStr → Bool
  | [] => pat.isEmpty
  | c :: rest => isPre pat (c :: rest) || containsSeq pat rest

/-- Suffix test: `endsWith p s` is true when `p` is a suffix of `s`. -/
def endsWith (p s : PyStr) : Bool := isPre p.reverse s.reverse

/-- Prepend a character to the first piece of a split result. -/
def consHead (c : Char) : List PyStr → List PyStr
  | [] => [[c]]
  | p :: ps => (c :: p) :: ps

/-- Python `text.split(',')`: split on every comma. -/
def splitComma : PyStr → List PyStr
  | [] => [[]]
  | c :: rest => if c = ',' then [] :: splitComma rest else consHead c (splitComma rest)

/-- The literal `' - '` separator of the MixedInKey comment convention. -/
def sepDash : PyStr := [' ', '-', ' ']

/-- Python `text.split(' - ')`: split on every occurrence of the literal
three-character separator, leftmost first, non-overlapping. -/
def splitDash : PyStr → List PyStr
  | ' ' :: '-' :: ' ' :: rest => [] :: splitDash rest
  | c :: rest => consHead c (splitDash rest)
  | [] => [[]]

/-- Python `', '.join(tags)`. -/
def joinComma (ts : List PyStr) : PyStr := (ts.intersperse [',', ' ']).flatten

/-- First occurrence of the non-empty separator `p0 :: ptl` in a string:
returns the part before and the part after it, as in Python
`value.split(separator, 1)` when the separator occurs. -/
def findSplit (p0 : Char) (ptl : PyStr) : PyStr → Option (PyStr × PyStr)
  | [] => none
  | c :: rest =>
    if isPre (p0 :: ptl) (c :: rest) then some ([], rest.drop ptl.length)
    else
      match findSplit p0 ptl rest with
      | some (pre, post) => some (c :: pre, post)
      | none => none

/-- Python `original.replace(find, repl)` for the non-empty literal
`find = f0 :: ftl`: replace all non-overlapping occurrences, leftmost first. -/
def replaceCS (f0 : Char) (ftl repl : PyStr) : PyStr → PyStr
  | [] => []
  | c :: rest =>
    if isPre (f0 :: ftl) (c :: rest) then repl ++ replaceCS f0 ftl repl (rest.drop ftl.length)
    else c :: replaceCS f0 ftl repl rest
termination_by s => s.length
decreasing_by
  · simp only [List.length_cons, List.length_drop]
    omega
  · simp only [List.length_cons]
    omega

/-- Case-insensitive prefix test (used to model `re.sub(re.escape(find), …,
flags=re.IGNORECASE)` on an escaped literal pattern). -/
def isPreCI : PyStr → PyStr → Bool
  | [], _ => true
  | _ :: _, [] => false
  | a :: as, b :: bs => a.toLower == b.toLower && isPreCI as bs

/-- Case-insensitive literal replacement of all non-overlapping occurrences of
the non-empty `find = f0 :: ftl`, leftmost first: the behaviour of
`re.sub(re.escape(find), repl, s, flags=re.IGNORECASE)`. -/
def replaceCI (f0 : Char) (ftl repl : PyStr) : PyStr → PyStr
  | [] => []
  | c :: rest =>
    if isPreCI (f0 :: ftl) (c :: rest) then repl ++ replaceCI f0 ftl repl (rest.drop ftl.length)
    else c :: replaceCI f0 ftl repl rest
termination_by s => s.length
decreasing_by
  · simp only [List.length_cons, List.length_drop]
    omega
  · simp only [List.length_cons]
    omega

/-- Python `str.capitalize()`: first character upper-cased, all remaining
characters lower-cased (ASCII model). -/
def pyCapitalize : PyStr → PyStr
  | [] => []
  | c :: rest => c.toUpper :: rest.map Char.toLower

/-- Helper for `pyTitle`: `prevAlpha` records whether the previous character
was alphabetic. -/
def pyTitleAux : Bool → PyStr → PyStr
  | _, [] => []
  | prevAlpha, c :: rest =>
    (if c.isAlpha then (if prevAlpha then c.toLower else c.toUpper) else c)
      :: pyTitleAux c.isAlpha rest

/-- Python `str.title()` (ASCII model): upper-case each letter that starts a
word, lower-case the rest. -/
def pyTitle (s : PyStr) : PyStr := pyTitleAux false s

/-! ## Tag records (`AudioFile.tags`) -/

/-- The fixed field-name set `TAG_FIELDS` of `bulk_tag_utility.py`. -/
inductive TagField where
  | title | artist | album | albumartist | composer | conductor
  | genre | date | comment | bpm | key | mood
  | lyricist | remixer | label | isrc | copyright
deriving DecidableEq, Fintype

/-- `TAG_FIELDS` in source order (the key-insertion order of a loaded
`audio_file.tags` dict). -/
def allTagFields : List TagField :=
  [.title, .artist, .album, .albumartist, .composer, .conductor,
   .genre, .date, .comment, .bpm, .key, .mood,
   .lyricist, .remixer, .label, .isrc, .copyright]

/-- An in-memory tag record (`audio_file.tags`): field name to string value;
`none` models a key absent from the dict. -/
def Record := TagField → Option PyStr

instance : DecidableEq Record := fun r s =>
  decidable_of_iff (∀ f, r f = s f) funext_iff.symm

/-- `audio_file.tags[f] = v` (dict assignment). -/
def setTag (r : Record) (f : TagField) (v : PyStr) : Record :=
  fun g => if g = f then some v else r g

/-! ## Operation parameters (the UI state read by `apply_operations_to_file`) -/

/-- Parameters of the "Replace Text" operation. -/
structure ReplaceCfg where
  field : TagField
  find : PyStr
  repl : PyStr
  caseSensitive : Bool
  useRegex : Bool
deriving DecidableEq

/-- Field selector of the "Trim Whitespace" operation
(`TAG_FIELDS + ['ALL FIELDS']`). -/
inductive TrimSel where
  | one (f : TagField)
  | all
deriving DecidableEq

/-- Parameters of the "Trim Whitespace" operation. -/
structure TrimCfg where
  field : TrimSel
  leading : Bool
  trailing : Bool
deriving DecidableEq

/-- Parameters of the "Copy Field" operation. -/
structure CopyCfg where
  fromField : TagField
  toField : TagField
  append : Bool
deriving DecidableEq

/-- The four radio-button modes of the "Change Case" operation. -/
inductive CaseMode where
  | title | upper | lower | sentence
deriving DecidableEq

/-- Parameters of the "Change Case" operation. -/
structure CaseCfg where
  field : TagField
  mode : CaseMode
deriving DecidableEq

/-- Parameters of the "Add Prefix/Suffix" operation (`pre`/`suf` are the
prefix and suffix entries). -/
structure AddCfg where
  field : TagField
  pre : PyStr
  suf : PyStr
deriving DecidableEq

/-- Parameters of the "Remove Text" operation. -/
structure RemoveCfg where
  field : TagField
  text : PyStr
deriving DecidableEq

/-- Parameters of the "Split Field" operation. -/
structure SplitCfg where
  source : TagField
  sep : PyStr
  leftField : TagField
  rightField : TagField
deriving DecidableEq

/-- Behaviour of Python's `re.sub(find, repl, original, flags)` as an external
collaborator: arguments are pattern, replacement, subject and the
case-sensitive flag; `none` models `re.error` being raised on a malformed
pattern. -/
def RegexSub := PyStr → PyStr → PyStr → Bool → Option PyStr

/-! ## The seven operations (the if-blocks of `apply_operations_to_file`) -/

/-- Operation 1, "Replace Text" (`bulk_tag_utility.py` lines 828-853). -/
def applyReplaceOp (rsub : RegexSub) (cfg : ReplaceCfg) (r : Record) : Record :=
  match r cfg.field, cfg.find with
  | some original, f0 :: ftl =>
    if cfg.useRegex then
      match rsub (f0 :: ftl) cfg.repl original cfg.caseSensitive with
      | some res => setTag r cfg.field res
      | none => r
    else if cfg.caseSensitive then
      setTag r cfg.field (replaceCS f0 ftl cfg.repl original)
    else
      setTag r cfg.field (replaceCI f0 ftl cfg.repl original)
  | _, _ => r

/-- Operation 2, "Trim Whitespace" (lines 855-867). -/
def applyTrimOp (cfg : TrimCfg) (r : Record) : Record :=
  let fieldsToTrim :=
    match cfg.field with
    | .one f => [f]
    | .all => allTagFields.filter (fun f => (r f).isSome)
  fieldsToTrim.foldl
    (fun acc f =>
      match acc f with
      | some value =>
        let v1 := if cfg.leading then pyLstrip value else value
        let v2 := if cfg.trailing then pyRstrip v1 else v1
        setTag acc f v2
      | none => acc)
    r

/-- Operation 3, "Copy Field" (lines 869-879). -/
def applyCopyOp (cfg : CopyCfg) (r : Record) : Record :=
  match r cfg.fromField with
  | some sourceValue =>
    if cfg.append && (r cfg.toField).isSome then
      setTag r cfg.toField ((r cfg.toField).getD [] ++ ' ' :: sourceValue)
    else
      setTag r cfg.toField sourceValue
  | none => r

/-- Operation 4, "Change Case" (lines 881-895). -/
def applyCaseOp (cfg : CaseCfg) (r : Record) : Record :=
  match r cfg.field with
  | some value =>
    match cfg.mode with
    | .upper => setTag r cfg.field (value.map Char.toUpper)
    | .lower => setTag r cfg.field (value.map Char.toLower)
    | .title => setTag r cfg.field (pyTitle value)
    | .sentence => setTag r cfg.field (pyCapitalize value)
  | none => r

/-- Operation 5, "Add Prefix/Suffix" (lines 897-905). -/
def applyAddOp (cfg : AddCfg) (r : Record) : Record :=
  match r cfg.field with
  | some value => setTag r cfg.field (cfg.pre ++ value ++ cfg.suf)
  | none => r

/-- Operation 6, "Remove Text" (lines 907-913): removes all occurrences of the
non-empty literal; no-ops when the literal is empty. -/
def applyRemoveOp (cfg : RemoveCfg) (r : Record) : Record :=
  match r cfg.field, cfg.text with
  | some value, t0 :: ttl => setTag r cfg.field (replaceCS t0 ttl [] value)
  | _, _ => r

/-- Operation 7, "Split Field" (lines 915-930): split on the first occurrence
of the non-empty separator only. -/
def applySplitOp (cfg : SplitCfg) (r : Record) : Record :=
  match r cfg.source, cfg.sep with
  | some value, s0 :: stl =>
    match findSplit s0 stl value with
    | some (pre, post) =>
      setTag (setTag r cfg.leftField (pyStrip pre)) cfg.rightField (pyStrip post)
    | none => setTag r cfg.leftField (pyStrip value)
  | _, _ => r

/-! ## The pipeline -/

/-- A pipeline configuration: the seven enable checkboxes
(`op_*_var`) with their parameter panels. -/
structure PipelineCfg where
  opReplace : Bool
  replaceCfg : ReplaceCfg
  opTrim : Bool
  trimCfg : TrimCfg
  opCopy : Bool
  copyCfg : CopyCfg
  opCase : Bool
  caseCfg : CaseCfg
  opAdd : Bool
  addCfg : AddCfg
  opRemove : Bool
  removeCfg : RemoveCfg
  opSplit : Bool
  splitCfg : SplitCfg
deriving DecidableEq

/-- `BulkTagUtility.apply_operations_to_file` (lines 825-931). The Python
method mutates `audio_file.tags` in place and returns `None`; this function
returns the post-call value of `audio_file.tags` given its pre-call value. -/
def applyOperationsToFile (rsub : RegexSub) (cfg : PipelineCfg) (r : Record) : Record :=
  let r1 := if cfg.opReplace then applyReplaceOp rsub cfg.replaceCfg r else r
  let r2 := if cfg.opTrim then applyTrimOp cfg.trimCfg r1 else r1
  let r3 := if cfg.opCopy then applyCopyOp cfg.copyCfg r2 else r2
  let r4 := if cfg.opCase then applyCaseOp cfg.caseCfg r3 else r3
  let r5 := if cfg.opAdd then applyAddOp cfg.addCfg r4 else r4
  let r6 := if cfg.opRemove then applyRemoveOp cfg.removeCfg r5 else r5
  if cfg.opSplit then applySplitOp cfg.splitCfg r6 else r6

/-- One pipeline stage: Replace when enabled, else the identity. -/
def stepReplace (rsub : RegexSub) (cfg : PipelineCfg) (r : Record) : Record :=
  if cfg.opReplace then applyReplaceOp rsub cfg.replaceCfg r else r

/-- One pipeline stage: Trim when enabled, else the identity. -/
def stepTrim (cfg : PipelineCfg) (r : Record) : Record :=
  if cfg.opTrim then applyTrimOp cfg.trimCfg r else r

/-- One pipeline stage: Copy when enabled, else the identity. -/
def stepCopy (cfg : PipelineCfg) (r : Record) : Record :=
  if cfg.opCopy then applyCopyOp cfg.copyCfg r else r

/-- One pipeline stage: Recase when enabled, else the identity. -/
def stepCase (cfg : PipelineCfg) (r : Record) : Record :=
  if cfg.opCase then applyCaseOp cfg.caseCfg r else r

/-- One pipeline stage: Affix when enabled, else the identity. -/
def stepAdd (cfg : PipelineCfg) (r : Record) : Record :=
  if cfg.opAdd then applyAddOp cfg.addCfg r else r

/-- One pipeline stage: Remove when enabled, else the identity. -/
def stepRemove (cfg : PipelineCfg) (r : Record) : Record :=
  if cfg.opRemove then applyRemoveOp cfg.removeCfg r else r

/-- One pipeline stage: Split when enabled, else the identity. -/
def stepSplit (cfg : PipelineCfg) (r : Record) : Record :=
  if cfg.opSplit then applySplitOp cfg.splitCfg r else r

/-- Outcome of `BulkTagUtility.preview_changes` (lines 763-792) on the first
selected file, restricted to its effect on tag data: `displayed` is the
transformed mapping the preview pane diffs against the original, and
`finalTags` is the value of `test_file.tags` after the method returns
(the method saves `original_tags = test_file.tags.copy()`, applies the
pipeline in place, then restores `test_file.tags = original_tags`). -/
structure PreviewOutcome where
  displayed : Record
  finalTags : Record

/-- `BulkTagUtility.preview_changes` data flow for the previewed file. -/
def previewChanges (rsub : RegexSub) (cfg : PipelineCfg) (r : Record) : PreviewOutcome :=
  let originalTags := r
  let transformed := applyOperationsToFile rsub cfg r
  { displayed := transformed, finalTags := originalTags }

/-! ## Field codec (`quick_tag_actions.py`) -/

/-- Result of `QuickActions.get_tag_list` for the COMMENT field:
`(key, rating, tags)`, where key and rating stay `None` for a
non-composite comment. The rating is returned as the raw string piece. -/
structure TagListResult where
  key : Option PyStr
  rating : Option PyStr
  tags : List PyStr
deriving DecidableEq

/-- `QuickActions.get_tag_list(audio, "COMMENT")` (lines 152-165) applied to
the raw text of the `COMM::eng` frame. -/
def getTagListComment (text : PyStr) : TagListResult :=
  if containsSeq sepDash text then
    let parts := splitDash text
    if 3 ≤ parts.length then
      ⟨some (parts.getD 0 []), some (parts.getD 1 []),
        (splitComma (parts.getD 2 [])).map pyStrip⟩
    else ⟨none, none, (splitComma text).map pyStrip⟩
  else ⟨none, none, (splitComma text).map pyStrip⟩

/-- Python truthiness of an optional string argument (`if key and energy`):
`None` and the empty string are falsy. -/
def truthyOpt : Option PyStr → Bool
  | none => false
  | some s => !s.isEmpty

/-- `QuickActions.set_tag_list(audio, "COMMENT", tags, key, energy)`
(lines 185-193): the raw text written into the `COMM::eng` frame. -/
def setTagListComment (tags : List PyStr) (key energy : Option PyStr) : PyStr :=
  if truthyOpt key && truthyOpt energy then
    if tags ≠ [] then
      key.getD [] ++ sepDash ++ energy.getD [] ++ sepDash ++ joinComma tags
    else key.getD [] ++ sepDash ++ energy.getD []
  else joinComma tags

/-! ## `UndoManager` (`bulk_tag_utility.py` lines 140-207) -/

/-- State of an `UndoManager`; `α` is the type of one history entry (an
action name with its snapshots — its contents are irrelevant to the
history-management logic). `currentIndex` is an integer because the Python
code drives it down to `-1`. -/
structure UndoState (α : Type) where
  maxHistory : Nat
  history : List α
  currentIndex : Int
deriving DecidableEq

/-- `UndoManager.__init__(max_history)`. -/
def initUndo (α : Type) (maxHistory : Nat) : UndoState α :=
  { maxHistory := maxHistory, history := [], currentIndex := -1 }

/-- `UndoManager.record_action` (lines 148-169): truncate the redo future
(`history[:current_index + 1]`), append the new entry, then either evict the
oldest entry (`pop(0)`) on overflow or advance the position. The slice bound
`current_index + 1` is never negative on reachable states, so the `toNat`
clamp agrees with Python slicing there. -/
def recordAction (s : UndoState α) (e : α) : UndoState α :=
  let h2 := s.history.take (s.currentIndex + 1).toNat ++ [e]
  if s.maxHistory < h2.length then
    { s with history := h2.drop 1 }
  else
    { s with history := h2, currentIndex := s.currentIndex + 1 }

/-- `UndoManager.can_undo` (lines 171-173). -/
def canUndo (s : UndoState α) : Bool := decide (0 ≤ s.currentIndex)

/-- `UndoManager.can_redo` (lines 175-177). -/
def canRedo (s : UndoState α) : Bool := decide (s.currentIndex < (s.history.length : Int) - 1)

/-- `UndoManager.undo` (lines 179-186): returns the entry at the current
position (list indexing modelled as `get?`, so an out-of-range access would
show up as `none`) and decrements the position; returns `none` and leaves the
state unchanged when nothing can be undone. -/
def undo (s : UndoState α) : Option α × UndoState α :=
  if canUndo s then
    (s.history.get? s.currentIndex.toNat, { s with currentIndex := s.currentIndex - 1 })
  else (none, s)

/-- `UndoManager.redo` (lines 188-195): advances the position and returns the
entry now at it; returns `none` and leaves the state unchanged when nothing
can be redone. -/
def redo (s : UndoState α) : Option α × UndoState α :=
  if canRedo s then
    (s.history.get? (s.currentIndex + 1).toNat, { s with currentIndex := s.currentIndex + 1 })
  else (none, s)

/-- One call against an `UndoManager`. -/
inductive UndoCall (α : Type) where
  | record (e : α)
  | undo
  | redo
deriving DecidableEq

/-- Apply one call to an `UndoManager` state. -/
def stepUndoCall (s : UndoState α) : UndoCall α → UndoState α
  | .record e => recordAction s e
  | .undo => (undo s).2
  | .redo => (redo s).2

/-- Run a sequence of calls against a fresh `UndoManager(max_history)`. -/
def runUndoCalls (maxHistory : Nat) (calls : List (UndoCall α)) : UndoState α :=
  calls.foldl stepUndoCall (initUndo α maxHistory)

/-- Record a list of actions in order (no intervening undo/redo). -/
def recordAll (s : UndoState α) (es : List α) : UndoState α :=
  es.foldl recordAction s

/-! ## Concrete sample inputs used by witnesses and counterexamples -/

/-- A regex oracle that fails on every input (every pattern malformed). -/
def rsubNone : RegexSub := fun _ _ _ _ => none

/-- Sample record: a freshly loaded file with a padded title. -/
def recTrimSample : Record := fun f =>
  match f with
  | .title => some "  my Song ".data
  | .artist => some "bob".data
  | _ => some []

/-- Sample record for the Copy operation: the destination key is present with
an empty value. -/
def recCopySample : Record := fun f =>
  match f with
  | .artist => some "bob".data
  | .comment => some []
  | _ => none

/-- Sample record for the Change Case operation. -/
def recCaseSample : Record := fun f =>
  match f with
  | .title => some "aB".data
  | _ => none

/-- A pipeline configuration with only Trim enabled (trim all fields, both
sides). -/
def cfgTrimOnly : PipelineCfg where
  opReplace := false
  replaceCfg := ⟨.title, [], [], false, false⟩
  opTrim := true
  trimCfg := ⟨.all, true, true⟩
  opCopy := false
  copyCfg := ⟨.artist, .comment, false⟩
  opCase := false
  caseCfg := ⟨.title, .title⟩
  opAdd := false
  addCfg := ⟨.title, [], []⟩
  opRemove := false
  removeCfg := ⟨.title, []⟩
  opSplit := false
  splitCfg := ⟨.title, [], .artist, .title⟩

/-- A pipeline configuration with Replace (regex mode, pattern `x`) and Trim
enabled. -/
def cfgRegexTrim : PipelineCfg where
  opReplace := true
  replaceCfg := ⟨.title, "x".data, "y".data, false, true⟩
  opTrim := true
  trimCfg := ⟨.all, true, true⟩
  opCopy := false
  copyCfg := ⟨.artist, .comment, false⟩
  opCase := false
  caseCfg := ⟨.title, .title⟩
  opAdd := false
  addCfg := ⟨.title, [], []⟩
  opRemove := false
  removeCfg := ⟨.title, []⟩
  opSplit := false
  splitCfg := ⟨.title, [], .artist, .title⟩

/-! ## Helper lemmas -/

lemma setTag_apply (r : Record) (f : TagField) (v : PyStr) (g : TagField) :
    setTag r f v g = if g = f then some v else r g := rfl

/-- **C2.** The pipeline applies the enabled operations in the fixed source
order Replace, Trim, Copy, Recase, Affix, Remove, Split — the enable
checkboxes only select which stages act, never their order — and each stage
receives the record produced by the previous stage, so every operation
observes the cumulative effect of the earlier ones in the same run. -/
theorem pipeline_fixed_order (rsub : RegexSub) (cfg : PipelineCfg) (r : Record) :
    applyOperationsToFile rsub cfg r =
      stepSplit cfg (stepRemove cfg (stepAdd cfg (stepCase cfg
        (stepCopy cfg (stepTrim cfg (stepReplace rsub cfg r)))))) := rfl

/-- **C1 (counterexample).** `apply_operations_to_file` does mutate the
caller's record in place: with only Trim enabled, the post-call value of
`audio_file.tags` differs from its pre-call value, so the input record is
not left unchanged. -/
theorem apply_mutates_input_counterexample :
    applyOperationsToFile rsubNone cfgTrimOnly recTrimSample ≠ recTrimSample := by
  decide

/-- **C1 (amended).** `apply_operations_to_file` transforms `audio_file.tags`
in place rather than returning a copy; `preview_changes` compensates by
saving `original_tags = test_file.tags.copy()` before applying and restoring
it afterwards, so after preview returns the caller's record is unchanged. -/
theorem preview_restores_original (rsub : RegexSub) (cfg : PipelineCfg) (r : Record) :
    (previewChanges rsub cfg r).finalTags = r := rfl

/-- **C4 (counterexample).** With the append flag set and the destination
field present but empty, the claim predicts a full overwrite
(`comment = "bob"`), but the code appends onto the empty value and produces
`" bob"` with a leading space: the append branch tests key presence, not
non-emptiness. -/
theorem copy_append_empty_dest_counterexample :
    (applyCopyOp ⟨.artist, .comment, true⟩ recCopySample) TagField.comment = some " bob".data ∧
      " bob".data ≠ "bob".data := by
  constructor
  · decide
  · decide

/-- **C4 (amended).** For every record in which the source field exists, the
Copy operation appends (`destination + " " + source`) exactly when the append
flag is set and the destination key is present in the record — even when its
value is the empty string; otherwise (append flag unset, or destination key
absent) the destination is fully overwritten with the source value. All other
fields are untouched. -/
theorem copy_semantics (cfg : CopyCfg) (r : Record) (src : PyStr)
    (hs : r cfg.fromField = some src) :
    (applyCopyOp cfg r) cfg.toField =
      some (match r cfg.toField, cfg.append with
            | some dst, true => dst ++ ' ' :: src
            | _, _ => src) ∧
      ∀ g, g ≠ cfg.toField → (applyCopyOp cfg r) g = r g := by
  unfold applyCopyOp
  rw [hs]
  rcases hd : r cfg.toField with _ | dst <;> rcases ha : cfg.append <;>
    simp [setTag, hd] <;> exact fun g hg hg2 => absurd hg2 hg

/-- **C4 (witness).** Concrete instance: copying `artist = "bob"` onto a
present-but-empty `comment` with append set yields `" bob"`. -/
theorem copy_semantics_witness :
    (applyCopyOp ⟨.artist, .comment, true⟩ recCopySample) TagField.comment =
      some (match recCopySample TagField.comment, true with
            | some dst, true => dst ++ ' ' :: "bob".data
            | _, _ => "bob".data) ∧
      ∀ g, g ≠ TagField.comment →
        (applyCopyOp ⟨.artist, .comment, true⟩ recCopySample) g = recCopySample g :=
  copy_semantics ⟨.artist, .comment, true⟩ recCopySample "bob".data rfl

/-- **C5 (counterexample).** Sentence mode on `"aB"` produces `"Ab"`, not the
`"AB"` the claim predicts: Python's `str.capitalize()` lower-cases every
character after the first instead of leaving it unchanged. -/
theorem sentence_case_counterexample :
    (applyCaseOp ⟨.title, .sentence⟩ recCaseSample) TagField.title = some "Ab".data ∧
      "Ab".data ≠ "AB".data := by
  constructor
  · decide
  · decide

/-- **C5 (amended).** Recase in sentence mode upper-cases the first character
of the string and lower-cases every remaining character (the semantics of
Python `str.capitalize()`); the empty string maps to the empty string. Other
fields are untouched. -/
theorem sentence_case_semantics (cfg : CaseCfg) (r : Record) (v : PyStr)
    (hm : cfg.mode = CaseMode.sentence) (hv : r cfg.field = some v) :
    (applyCaseOp cfg r) cfg.field =
      some (match v with
            | [] => []
            | c :: rest => c.toUpper :: rest.map Char.toLower) ∧
      ∀ g, g ≠ cfg.field → (applyCaseOp cfg r) g = r g := by
  rcases v with _ | ⟨c, rest⟩ <;>
    simp [applyCaseOp, hv, hm, setTag, pyCapitalize] <;>
      exact fun g hg hg2 => absurd hg2 hg

/-- **C5 (witness).** Concrete instance at `title = "aB"`. -/
theorem sentence_case_semantics_witness :
    (applyCaseOp ⟨.title, .sentence⟩ recCaseSample) TagField.title =
      some (match "aB".data with
            | [] => []
            | c :: rest => c.toUpper :: rest.map Char.toLower) ∧
      ∀ g, g ≠ TagField.title →
        (applyCaseOp ⟨.title, .sentence⟩ recCaseSample) g = recCaseSample g :=
  sentence_case_semantics ⟨.title, .sentence⟩ recCaseSample "aB".data rfl rfl

/-- **C9.** When Replace runs in regex mode and the pattern is malformed
(the `re.sub` oracle raises, modelled by `none`), the operation is skipped
for that record — the record is left exactly as it was by Replace — and the
whole pipeline behaves as if Replace were disabled, so every later enabled
operation still executes and the failure is not fatal. -/
theorem replace_invalid_regex_skipped (rsub : RegexSub) (cfg : PipelineCfg)
    (r : Record) (orig : PyStr)
    (hre : cfg.replaceCfg.useRegex = true)
    (hf : r cfg.replaceCfg.field = some orig)
    (herr : rsub cfg.replaceCfg.find cfg.replaceCfg.repl orig
      cfg.replaceCfg.caseSensitive = none) :
    applyReplaceOp rsub cfg.replaceCfg r = r ∧
      applyOperationsToFile rsub cfg r =
        applyOperationsToFile rsub { cfg with opReplace := false } r := by
  have h1 : applyReplaceOp rsub cfg.replaceCfg r = r := by
    unfold applyReplaceOp
    rw [hf]
    rcases hfind : cfg.replaceCfg.find with _ | ⟨f0, ftl⟩
    · rfl
    · rw [hfind] at herr
      simp [hre, herr]
  refine ⟨h1, ?_⟩
  have h2 : (if cfg.opReplace then applyReplaceOp rsub cfg.replaceCfg r else r) = r := by
    rcases cfg.opReplace <;> simp [h1]
  simp [applyOperationsToFile, h2]

/-- **C9 (witness).** Concrete instance: oracle that fails on every pattern,
Replace (regex) plus Trim enabled. -/
theorem replace_invalid_regex_skipped_witness :
    applyReplaceOp rsubNone cfgRegexTrim.replaceCfg recTrimSample = recTrimSample ∧
      applyOperationsToFile rsubNone cfgRegexTrim recTrimSample =
        applyOperationsToFile rsubNone { cfgRegexTrim with opReplace := false } recTrimSample :=
  replace_invalid_regex_skipped rsubNone cfgRegexTrim recTrimSample "  my Song ".data
    rfl rfl rfl

/-! ## `UndoManager` lemmas -/

/-- The safety invariant of an `UndoManager` state. -/
def UndoInv (s : UndoState α) : Prop :=
  -1 ≤ s.currentIndex ∧ s.currentIndex ≤ (s.history.length : Int) - 1 ∧
    s.history.length ≤ s.maxHistory

lemma undoInv_init (α : Type) (m : Nat) : UndoInv (initUndo α m) := by
  refine ⟨le_refl _, ?_, Nat.zero_le _⟩
  simp [initUndo]

lemma undoInv_record {s : UndoState α} (h : UndoInv s) (e : α) :
    UndoInv (recordAction s e) := by
  obtain ⟨h1, h2, h3⟩ := h
  have hle : (s.currentIndex + 1).toNat ≤ s.history.length := by omega
  have htake : (s.history.take (s.currentIndex + 1).toNat).length =
      (s.currentIndex + 1).toNat := by
    rw [List.length_take]
    exact Nat.min_eq_left hle
  unfold recordAction
  dsimp only
  split
  next hcond =>
    simp only [UndoInv, List.length_drop, List.length_append, htake,
      List.length_cons, List.length_nil] at hcond ⊢
    omega
  next hcond =>
    simp only [UndoInv, List.length_append, htake, List.length_cons,
      List.length_nil] at hcond ⊢
    omega

lemma undoInv_undo {s : UndoState α} (h : UndoInv s) : UndoInv (undo s).2 := by
  obtain ⟨h1, h2, h3⟩ := h
  unfold undo canUndo
  split <;> simp only [UndoInv] at * <;> [skip; exact ⟨h1, h2, h3⟩]
  next hc =>
    refine ⟨?_, ?_, h3⟩ <;> simp only [decide_eq_true_eq] at hc <;> omega

lemma undoInv_redo {s : UndoState α} (h : UndoInv s) : UndoInv (redo s).2 := by
  obtain ⟨h1, h2, h3⟩ := h
  unfold redo canRedo
  split <;> simp only [UndoInv] at * <;> [skip; exact ⟨h1, h2, h3⟩]
  next hc =>
    refine ⟨?_, ?_, h3⟩ <;> simp only [decide_eq_true_eq] at hc <;> omega

lemma undoInv_step {s : UndoState α} (h : UndoInv s) (c : UndoCall α) :
    UndoInv (stepUndoCall s c) := by
  cases c with
  | record e => exact undoInv_record h e
  | undo => exact undoInv_undo h
  | redo => exact undoInv_redo h

lemma maxHistory_step (s : UndoState α) (c : UndoCall α) :
    (stepUndoCall s c).maxHistory = s.maxHistory := by
  cases c with
  | record e =>
    simp only [stepUndoCall, recordAction]
    split <;> rfl
  | undo =>
    simp only [stepUndoCall, undo]
    split <;> rfl
  | redo =>
    simp only [stepUndoCall, redo]
    split <;> rfl

lemma undoInv_foldl (calls : List (UndoCall α)) :
    ∀ s : UndoState α, UndoInv s →
      UndoInv (calls.foldl stepUndoCall s) ∧
        (calls.foldl stepUndoCall s).maxHistory = s.maxHistory := by
  induction calls with
  | nil => exact fun s hs => ⟨hs, rfl⟩
  | cons c cs ih =>
    intro s hs
    obtain ⟨ha, hb⟩ := ih (stepUndoCall s c) (undoInv_step hs c)
    exact ⟨ha, hb.trans (maxHistory_step s c)⟩

lemma get_isSome_of_inv {s : UndoState α} (h : UndoInv s) :
    ((undo s).1.isSome = canUndo s) ∧ ((redo s).1.isSome = canRedo s) := by
  obtain ⟨h1, h2, h3⟩ := h
  constructor
  · unfold undo
    split
    next hc =>
      simp only [hc]
      unfold canUndo at hc
      simp only [decide_eq_true_eq] at hc
      have hlt : s.currentIndex.toNat < s.history.length := by omega
      rw [List.get?_eq_get hlt]
      rfl
    next hc => simp [Bool.not_eq_true] at hc ⊢; simp [hc]
  · unfold redo
    split
    next hc =>
      simp only [hc]
      unfold canRedo at hc
      simp only [decide_eq_true_eq] at hc
      have hlt : (s.currentIndex + 1).toNat < s.history.length := by omega
      rw [List.get?_eq_get hlt]
      rfl
    next hc => simp [Bool.not_eq_true] at hc ⊢; simp [hc]

/-- **C10.** `UndoManager` safety: starting from the initial state (empty
history, `current_index = -1`), after every finite sequence of
`record_action`, `undo` and `redo` calls the state satisfies
`-1 ≤ current_index ≤ len(history) - 1` and `len(history) ≤ max_history`,
and the list accesses of `undo`/`redo` succeed exactly when the
corresponding `can_undo`/`can_redo` guard holds — so neither ever indexes
outside the history list, returning `none` instead when no entry is
available. -/
theorem undo_manager_safety (α : Type) (m : Nat) (calls : List (UndoCall α)) :
    (-1 ≤ (runUndoCalls m calls).currentIndex ∧
      (runUndoCalls m calls).currentIndex ≤
        ((runUndoCalls m calls).history.length : Int) - 1 ∧
      (runUndoCalls m calls).history.length ≤ m) ∧
    ((undo (runUndoCalls m calls)).1.isSome = canUndo (runUndoCalls m calls)) ∧
    ((redo (runUndoCalls m calls)).1.isSome = canRedo (runUndoCalls m calls)) := by
  obtain ⟨hinv, hmax⟩ := undoInv_foldl calls (initUndo α m) (undoInv_init α m)
  have hinv2 : UndoInv (runUndoCalls m calls) := hinv
  refine ⟨⟨hinv2.1, hinv2.2.1, ?_⟩, get_isSome_of_inv hinv2⟩
  have h3 := hinv2.2.2
  have hm : (runUndoCalls (α := α) m calls).maxHistory = m := by
    simpa [initUndo] using hmax
  rwa [hm] at h3

/-- **C8.** Recording a new action while `current_index < len(history) - 1`
(i.e. after at least one undo) first discards every entry after the current
position — the history becomes `history[:current_index + 1]` plus the new
entry — and immediately afterwards `can_redo()` is false. (The other two
hypotheses are the state invariant established by `undo_manager_safety`.) -/
theorem record_truncates_redo_future (α : Type) (s : UndoState α) (e : α)
    (h1 : -1 ≤ s.currentIndex)
    (h2 : s.currentIndex < (s.history.length : Int) - 1)
    (h3 : s.history.length ≤ s.maxHistory) :
    (recordAction s e).history =
      s.history.take (s.currentIndex + 1).toNat ++ [e] ∧
    canRedo (recordAction s e) = false := by
  have hle : (s.currentIndex + 1).toNat ≤ s.history.length := by omega
  have htake : (s.history.take (s.currentIndex + 1).toNat).length =
      (s.currentIndex + 1).toNat := by
    rw [List.length_take]
    exact Nat.min_eq_left hle
  have hnoov : ¬ s.maxHistory <
      (s.history.take (s.currentIndex + 1).toNat ++ [e]).length := by
    simp only [List.length_append, htake, List.length_cons, List.length_nil]
    omega
  unfold recordAction
  dsimp only
  rw [if_neg hnoov]
  refine ⟨rfl, ?_⟩
  unfold canRedo
  simp only [List.length_append, htake, List.length_cons, List.length_nil,
    decide_eq_false_iff_not]
  omega

/-- **C8 (witness).** Concrete mid-history state: three entries, position 0;
recording keeps only entry 0, appends the new entry, and redo is impossible. -/
theorem record_truncates_redo_future_witness :
    (recordAction ({ maxHistory := 5, history := [10, 11, 12], currentIndex := 0 } :
        UndoState Nat) 9).history =
      ([10, 11, 12] : List Nat).take ((0 : Int) + 1).toNat ++ [9] ∧
    canRedo (recordAction ({ maxHistory := 5, history := [10, 11, 12], currentIndex := 0 } :
        UndoState Nat) 9) = false :=
  record_truncates_redo_future Nat
    { maxHistory := 5, history := [10, 11, 12], currentIndex := 0 } 9
    (by decide) (by decide) (by decide)

lemma recordAll_from_head (es : List α) :
    ∀ s : UndoState α, 1 ≤ s.maxHistory → s.history.length ≤ s.maxHistory →
      s.currentIndex = (s.history.length : Int) - 1 →
      (recordAll s es).maxHistory = s.maxHistory ∧
      (recordAll s es).history =
        (s.history ++ es).drop (s.history.length + es.length - s.maxHistory) ∧
      (recordAll s es).currentIndex =
        ((min (s.history.length + es.length) s.maxHistory : Nat) : Int) - 1 := by
  induction es with
  | nil =>
    intro s hm hlen hidx
    refine ⟨rfl, ?_, ?_⟩
    · simp only [recordAll, List.foldl_nil, List.append_nil, List.length_nil]
      rw [Nat.add_zero, Nat.sub_eq_zero_of_le hlen, List.drop_zero]
    · simp only [recordAll, List.foldl_nil, List.length_nil, Nat.add_zero,
        Nat.min_eq_left hlen]
      exact hidx
  | cons e es ih =>
    intro s hm hlen hidx
    have hstep : recordAll s (e :: es) = recordAll (recordAction s e) es := by
      simp [recordAll]
    have htoNat : (s.currentIndex + 1).toNat = s.history.length := by omega
    have htake : s.history.take (s.currentIndex + 1).toNat = s.history := by
      rw [htoNat]
      exact List.take_length s.history
    rcases Nat.lt_or_ge s.history.length s.maxHistory with hfull | hfull
    · -- room left: the new entry is appended and the index advances
      have hne : ¬ s.maxHistory <
          (s.history.take (s.currentIndex + 1).toNat ++ [e]).length := by
        simp only [htake, List.length_append, List.length_cons, List.length_nil]
        omega
      have hrec : recordAction s e =
          { s with history := s.history ++ [e], currentIndex := s.currentIndex + 1 } := by
        unfold recordAction
        dsimp only
        rw [if_neg hne, htake]
      have hlen1 : (s.history ++ [e]).length = s.history.length + 1 := by
        simp
      obtain ⟨ha, hb, hc⟩ := ih
        { s with history := s.history ++ [e], currentIndex := s.currentIndex + 1 }
        hm (by simp only [hlen1]; omega)
        (by simp only [hlen1]; push_cast; omega)
      rw [hstep, hrec]
      refine ⟨ha, ?_, ?_⟩
      · rw [hb]
        simp only [hlen1, List.append_assoc, List.singleton_append, List.length_cons]
        congr 1
        omega
      · rw [hc]
        simp only [hlen1, List.length_cons]
        congr 3
        omega
    · -- history already at capacity: the oldest entry is evicted
      have hcap : s.history.length = s.maxHistory := le_antisymm hlen hfull
      have hov : s.maxHistory <
          (s.history.take (s.currentIndex + 1).toNat ++ [e]).length := by
        simp only [htake, List.length_append, List.length_cons, List.length_nil]
        omega
      have hrec : recordAction s e =
          { s with history := (s.history ++ [e]).drop 1 } := by
        unfold recordAction
        dsimp only
        rw [if_pos hov, htake]
      have hlen1 : ((s.history ++ [e]).drop 1).length = s.maxHistory := by
        simp only [List.length_drop, List.length_append, List.length_cons,
          List.length_nil]
        omega
      obtain ⟨ha, hb, hc⟩ := ih
        { s with history := (s.history ++ [e]).drop 1 }
        hm (by exact hlen1.le)
        (by
          show s.currentIndex = (((s.history ++ [e]).drop 1).length : Int) - 1
          rw [hlen1, hidx, hcap])
      rw [hstep, hrec]
      refine ⟨ha, ?_, ?_⟩
      · rw [hb]
        have hone : (1 : Nat) ≤ s.history.length := by omega
        have hd1 : (s.history ++ [e]).drop 1 ++ es = (s.history ++ e :: es).drop 1 := by
          rw [List.drop_append_of_le_length hone, List.drop_append_of_le_length hone,
            List.append_assoc, List.singleton_append]
        rw [hd1, hlen1, List.drop_drop]
        congr 1
        simp only [List.length_cons]
        omega
      · rw [hc, hlen1]
        have he1 : min (s.maxHistory + es.length) s.maxHistory = s.maxHistory :=
          Nat.min_eq_right (by omega)
        have he2 : min (s.history.length + (e :: es).length) s.maxHistory =
            s.maxHistory :=
          Nat.min_eq_right (by simp only [List.length_cons]; omega)
        rw [he1, he2]

/-- **C7.** History bound: starting from an empty history with capacity
`max_history ≥ 1`, after recording `max_history + 5` actions with no
intervening undo, exactly the `max_history` most-recent entries remain — the
history equals the recorded sequence with its 5 oldest entries dropped — and
the current position equals `max_history - 1`, the index of the newest
entry. -/
theorem history_bound (α : Type) (m : Nat) (es : List α)
    (hm : 1 ≤ m) (hlen : es.length = m + 5) :
    (recordAll (initUndo α m) es).history = es.drop 5 ∧
    (recordAll (initUndo α m) es).currentIndex = (m : Int) - 1 := by
  obtain ⟨_, hb, hc⟩ := recordAll_from_head es (initUndo α m) hm (Nat.zero_le m)
    (by simp [initUndo])
  constructor
  · rw [hb]
    simp only [initUndo, List.nil_append, List.length_nil, Nat.zero_add, hlen]
    congr 1
    omega
  · rw [hc]
    simp only [initUndo, List.length_nil, Nat.zero_add, hlen]
    rw [Nat.min_eq_right (by omega)]

/-- **C7 (witness).** Capacity 3, eight recorded actions: the last three
remain and the position is 2. -/
theorem history_bound_witness :
    (recordAll (initUndo Nat 3) [0, 1, 2, 3, 4, 5, 6, 7]).history =
      ([0, 1, 2, 3, 4, 5, 6, 7] : List Nat).drop 5 ∧
    (recordAll (initUndo Nat 3) [0, 1, 2, 3, 4, 5, 6, 7]).currentIndex = (3 : Int) - 1 :=
  history_bound Nat 3 [0, 1, 2, 3, 4, 5, 6, 7] (by decide) (by decide)

/-! ## Codec lemmas -/

lemma isPre_append_right (p X Y : PyStr) (h : isPre p X = true) :
    isPre p (X ++ Y) = true := by
  induction p generalizing X with
  | nil => rfl
  | cons a p ih =>
    cases X with
    | nil => simp [isPre] at h
    | cons b X =>
      simp only [isPre, Bool.and_eq_true] at h
      simp only [List.cons_append, isPre, Bool.and_eq_true]
      exact ⟨h.1, ih X h.2⟩

lemma splitDash_cons (c : Char) (rest : PyStr)
    (h : isPre sepDash (c :: rest) = false) :
    splitDash (c :: rest) = consHead c (splitDash rest) := by
  rw [splitDash]
  all_goals intros
  all_goals simp_all [isPre, sepDash]

lemma splitDash_sep (rest : PyStr) :
    splitDash (' ' :: '-' :: ' ' :: rest) = [] :: splitDash rest := rfl

lemma splitDash_ne_nil (s : PyStr) : splitDash s ≠ [] := by
  induction s with
  | nil => simp [splitDash]
  | cons c rest ih =>
    by_cases h : isPre sepDash (c :: rest) = true
    · rcases rest with _ | ⟨r1, _ | ⟨r2, rr⟩⟩ <;> simp [isPre, sepDash] at h
      obtain ⟨h1, h2, h3⟩ := h
      rw [← h1, ← h2, ← h3]
      simp [splitDash_sep]
    · rw [splitDash_cons c rest (by simpa using h)]
      cases hsp : splitDash rest with
      | nil => exact absurd hsp ih
      | cons p ps => simp [consHead]

lemma splitDash_no_sep (s : PyStr) (h : containsSeq sepDash s = false) :
    splitDash s = [s] := by
  induction s with
  | nil => rfl
  | cons c rest ih =>
    simp only [containsSeq, Bool.or_eq_false_iff] at h
    rw [splitDash_cons c rest h.1, ih h.2]
    rfl

lemma isPre_self (p : PyStr) : isPre p p = true := by
  induction p with
  | nil => rfl
  | cons a p ih => simp [isPre, ih]

lemma isPre_sep_extend (c : Char) (A B : PyStr)
    (h : isPre sepDash (c :: (A ++ [' ', '-'])) = false) :
    isPre sepDash (c :: (A ++ sepDash ++ B)) = false := by
  rcases A with _ | ⟨a, _ | ⟨b, A2⟩⟩ <;> simp_all [isPre, sepDash]
  all_goals exact h

lemma splitDash_append_sep (A B : PyStr)
    (h : containsSeq sepDash (A ++ [' ', '-']) = false) :
    splitDash (A ++ sepDash ++ B) = A :: splitDash B := by
  induction A with
  | nil =>
    show splitDash (' ' :: '-' :: ' ' :: B) = [] :: splitDash B
    exact splitDash_sep B
  | cons c A ih =>
    simp only [List.cons_append, containsSeq, Bool.or_eq_false_iff] at h
    have hpre : isPre sepDash (c :: (A ++ sepDash ++ B)) = false :=
      isPre_sep_extend c A B h.1
    show splitDash (c :: (A ++ sepDash ++ B)) = (c :: A) :: splitDash B
    rw [splitDash_cons c _ hpre, ih h.2]
    rfl

lemma containsSeq_append_sep (A B : PyStr) :
    containsSeq sepDash (A ++ sepDash ++ B) = true := by
  induction A with
  | nil =>
    show containsSeq sepDash (sepDash ++ B) = true
    rcases hs : sepDash ++ B with _ | ⟨c, rest⟩
    · simp [sepDash] at hs
    · rw [containsSeq, ← hs]
      simp [isPre_append_right sepDash sepDash B (isPre_self sepDash)]
  | cons c A ih =>
    have hsh : (c :: A) ++ sepDash ++ B = c :: (A ++ sepDash ++ B) := by simp
    rw [hsh, containsSeq, ih, Bool.or_true]

lemma splitComma_ne_nil (s : PyStr) : splitComma s ≠ [] := by
  induction s with
  | nil => simp [splitComma]
  | cons c rest ih =>
    by_cases h : c = ','
    · simp [splitComma, h]
    · rw [splitComma, if_neg h]
      cases hsp : splitComma rest with
      | nil => exact absurd hsp ih
      | cons p ps => simp [consHead]

lemma splitComma_no_comma (A : PyStr) (h : ',' ∉ A) : splitComma A = [A] := by
  induction A with
  | nil => rfl
  | cons c A ih =>
    simp only [List.mem_cons, not_or] at h
    rw [splitComma, if_neg (fun hc => h.1 hc.symm), ih h.2]
    rfl

lemma splitComma_append (A B : PyStr) (h : ',' ∉ A) :
    splitComma (A ++ ',' :: B) = A :: splitComma B := by
  induction A with
  | nil =>
    show splitComma (',' :: B) = [] :: splitComma B
    simp [splitComma]
  | cons c A ih =>
    simp only [List.mem_cons, not_or] at h
    show splitComma (c :: (A ++ ',' :: B)) = (c :: A) :: splitComma B
    rw [splitComma, if_neg (fun hc => h.1 hc.symm), ih h.2]
    rfl

lemma pyStrip_cons_space (x : PyStr) : pyStrip (' ' :: x) = pyStrip x := by
  have hs : isSpc ' ' = true := rfl
  simp [pyStrip, pyLstrip, List.dropWhile_cons, hs]

lemma mapStrip_splitComma_space (X : PyStr) :
    (splitComma (' ' :: X)).map pyStrip = (splitComma X).map pyStrip := by
  rw [splitComma, if_neg (by decide)]
  cases hsp : splitComma X with
  | nil => exact absurd hsp (splitComma_ne_nil X)
  | cons p ps => simp [consHead, pyStrip_cons_space]

lemma joinComma_nil : joinComma [] = [] := rfl

lemma joinComma_single (t : PyStr) : joinComma [t] = t := by
  simp [joinComma]

lemma joinComma_cons2 (t u : PyStr) (ts : List PyStr) :
    joinComma (t :: u :: ts) = t ++ ',' :: ' ' :: joinComma (u :: ts) := by
  simp [joinComma, List.intersperse]

lemma decode_joinComma (ts : List PyStr) (hne : ts ≠ [])
    (h : ∀ t ∈ ts, ',' ∉ t ∧ pyStrip t = t) :
    (splitComma (joinComma ts)).map pyStrip = ts := by
  induction ts with
  | nil => exact absurd rfl hne
  | cons t ts ih =>
    rcases ts with _ | ⟨u, ts2⟩
    · rw [joinComma_single, splitComma_no_comma t (h t (by simp)).1]
      simp [(h t (by simp)).2]
    · rw [joinComma_cons2, splitComma_append t _ (h t (by simp)).1]
      simp only [List.map_cons, (h t (by simp)).2, mapStrip_splitComma_space]
      rw [ih (by simp) (fun x hx => h x (by simp [hx]))]


lemma isPre_dm_append_comma (u Y : PyStr) (h : isPre ['-', ' '] u = false) :
    isPre ['-', ' '] (u ++ ',' :: Y) = false := by
  rcases u with _ | ⟨x, _ | ⟨y, u2⟩⟩ <;> simp_all [isPre]
  all_goals exact h

lemma isPre_dm_join (ts : List PyStr) (h : ∀ t ∈ ts, isPre ['-', ' '] t = false) :
    isPre ['-', ' '] (joinComma ts) = false := by
  rcases ts with _ | ⟨t, _ | ⟨u, ts2⟩⟩
  · simp [joinComma_nil, isPre]
  · rw [joinComma_single]
    exact h t (by simp)
  · rw [joinComma_cons2]
    exact isPre_dm_append_comma t _ (h t (by simp))

lemma isPre_sep_append_comma (c : Char) (A B : PyStr)
    (h : isPre sepDash (c :: A) = false) :
    isPre sepDash (c :: (A ++ ',' :: B)) = false := by
  rcases A with _ | ⟨a, _ | ⟨b, A2⟩⟩ <;> simp_all [isPre, sepDash]
  all_goals exact h

lemma containsSeq_sep_append_comma (A B : PyStr)
    (hA : containsSeq sepDash A = false) (hB : containsSeq sepDash B = false) :
    containsSeq sepDash (A ++ ',' :: B) = false := by
  induction A with
  | nil =>
    show containsSeq sepDash (',' :: B) = false
    rw [containsSeq]
    simp only [Bool.or_eq_false_iff]
    exact ⟨by simp [isPre, sepDash], hB⟩
  | cons c A ih =>
    simp only [containsSeq, Bool.or_eq_false_iff] at hA
    show containsSeq sepDash (c :: (A ++ ',' :: B)) = false
    rw [containsSeq]
    simp [isPre_sep_append_comma c A B hA.1, ih hA.2]

lemma containsSeq_sep_join (ts : List PyStr)
    (h : ∀ t ∈ ts, containsSeq sepDash t = false ∧ isPre ['-', ' '] t = false) :
    containsSeq sepDash (joinComma ts) = false := by
  induction ts with
  | nil => simp [joinComma_nil, containsSeq, sepDash]
  | cons t ts ih =>
    rcases ts with _ | ⟨u, ts2⟩
    · rw [joinComma_single]
      exact (h t (by simp)).1
    · rw [joinComma_cons2]
      apply containsSeq_sep_append_comma t _ (h t (by simp)).1
      have hj := ih (fun x hx => h x (by simp [hx]))
      have hdm : isPre ['-', ' '] (joinComma (u :: ts2)) = false :=
        isPre_dm_join _ (fun x hx => (h x (by simp [hx])).2)
      rw [containsSeq]
      simp only [Bool.or_eq_false_iff]
      refine ⟨?_, hj⟩
      simp [isPre, sepDash, hdm]

lemma endsWith_cons (p : PyStr) (c : Char) (l : PyStr) (h : endsWith p l = true) :
    endsWith p (c :: l) = true := by
  unfold endsWith at h ⊢
  rw [List.reverse_cons]
  exact isPre_append_right _ _ _ h

lemma containsSeq_sep_key (K : PyStr) (h1 : containsSeq sepDash K = false)
    (h2 : endsWith [' ', '-'] K = false) :
    containsSeq sepDash (K ++ [' ', '-']) = false := by
  induction K with
  | nil => decide
  | cons c K ih =>
    simp only [containsSeq, Bool.or_eq_false_iff] at h1
    have h2' : endsWith [' ', '-'] K = false := by
      by_contra hcon
      rw [Bool.not_eq_false] at hcon
      have := endsWith_cons [' ', '-'] c K hcon
      rw [h2] at this
      exact absurd this (by simp)
    show containsSeq sepDash (c :: (K ++ [' ', '-'])) = false
    rw [containsSeq]
    simp only [Bool.or_eq_false_iff]
    refine ⟨?_, ih h1.2 h2'⟩
    rcases K with _ | ⟨a, _ | ⟨b, K2⟩⟩
    · simp [isPre, sepDash]
    · by_cases hc : c = ' '
      · by_cases ha : a = '-'
        · subst hc ha
          exact absurd h2 (by decide)
        · have hb : ('-' == a) = false := beq_eq_false_iff_ne.mpr (fun hh => ha hh.symm)
          simp [isPre, sepDash, hb]
      · have hb : (' ' == c) = false := beq_eq_false_iff_ne.mpr (fun hh => hc hh.symm)
        simp [isPre, sepDash, hb]
    · have heq : isPre sepDash (c :: a :: b :: (K2 ++ [' ', '-'])) =
          isPre sepDash (c :: a :: b :: K2) := by
        simp [isPre, sepDash]
      simp only [List.cons_append]
      rw [heq]
      exact h1.1

lemma containsSeq_sep_digits (R : PyStr) (h : ∀ c ∈ R, c ≠ ' ') :
    containsSeq sepDash (R ++ [' ', '-']) = false := by
  induction R with
  | nil => decide
  | cons c R ih =>
    show containsSeq sepDash (c :: (R ++ [' ', '-'])) = false
    rw [containsSeq]
    simp only [Bool.or_eq_false_iff]
    refine ⟨?_, ih (fun x hx => h x (by simp [hx]))⟩
    have hb : (' ' == c) = false :=
      beq_eq_false_iff_ne.mpr (Ne.symm (h c (by simp)))
    simp [isPre, sepDash, hb]

/-- **C3 (counterexample).** The round-trip fails on an in-contract input:
key `"5A"`, rating 5, empty tag list. Encoding yields `"5A - 5"`, which
splits into only two parts, so decoding falls back to the plain comma-split
`(None, None, ["5A - 5"])` instead of recovering `("5A", 5, [])`. -/
theorem codec_roundtrip_counterexample :
    setTagListComment [] (some "5A".data) (some "5".data) = "5A - 5".data ∧
      getTagListComment (setTagListComment [] (some "5A".data) (some "5".data)) =
        ⟨none, none, ["5A - 5".data]⟩ ∧
      (⟨none, none, ["5A - 5".data]⟩ : TagListResult) ≠
        ⟨some "5A".data, some "5".data, []⟩ := by
  refine ⟨?_, ?_, ?_⟩ <;> decide

/-- **C3 (amended).** Codec round-trip, restricted to the shapes the code
actually inverts: for a non-empty key that contains no `" - "` and does not
end in `" -"`, a rating given as a non-empty string of decimal digits (the
decimal representation of a non-negative integer), and a *non-empty* tags
list whose elements contain no comma and no `" - "`, do not start with
`"- "`, and carry no surrounding whitespace,
`Decode(Encode(key, rating, tags)) = (key, rating, tags)`. -/
theorem codec_roundtrip (key rd : PyStr) (ts : List PyStr)
    (hk1 : key ≠ [])
    (hk2 : containsSeq sepDash key = false)
    (hk3 : endsWith [' ', '-'] key = false)
    (hr1 : rd ≠ [])
    (hr2 : ∀ c ∈ rd, c.isDigit = true)
    (ht1 : ts ≠ [])
    (ht : ∀ t ∈ ts, ',' ∉ t ∧ containsSeq sepDash t = false ∧
      isPre ['-', ' '] t = false ∧ pyStrip t = t) :
    getTagListComment (setTagListComment ts (some key) (some rd)) =
      ⟨some key, some rd, ts⟩ := by
  have henc : setTagListComment ts (some key) (some rd) =
      key ++ sepDash ++ (rd ++ sepDash ++ joinComma ts) := by
    rcases key with _ | ⟨k0, kt⟩
    · exact absurd rfl hk1
    rcases rd with _ | ⟨r0, rt⟩
    · exact absurd rfl hr1
    simp [setTagListComment, truthyOpt, ht1, List.isEmpty]
  have hrdsp : ∀ c ∈ rd, c ≠ ' ' := by
    intro c hc heq
    subst heq
    exact absurd (hr2 ' ' hc) (by decide)
  have hsplit : splitDash (setTagListComment ts (some key) (some rd)) =
      [key, rd, joinComma ts] := by
    rw [henc, splitDash_append_sep key _ (containsSeq_sep_key key hk2 hk3),
      splitDash_append_sep rd _ (containsSeq_sep_digits rd hrdsp),
      splitDash_no_sep _ (containsSeq_sep_join ts
        (fun t htm => ⟨(ht t htm).2.1, (ht t htm).2.2.1⟩))]
  have hcontains : containsSeq sepDash (setTagListComment ts (some key) (some rd)) =
      true := by
    rw [henc]
    exact containsSeq_append_sep key _
  rw [getTagListComment.eq_def]
  rw [if_pos hcontains]
  simp only [hsplit]
  rw [if_pos (by simp)]
  simp only [List.getD, List.get?, Option.getD_some]
  rw [decode_joinComma ts ht1 (fun t htm => ⟨(ht t htm).1, (ht t htm).2.2.2⟩)]

/-- **C3 (witness).** The spec's own example: key `"5A"`, rating 5, tags
`["Dark", "Upper"]`. -/
theorem codec_roundtrip_witness :
    getTagListComment (setTagListComment ["Dark".data, "Upper".data]
        (some "5A".data) (some "5".data)) =
      ⟨some "5A".data, some "5".data, ["Dark".data, "Upper".data]⟩ :=
  codec_roundtrip "5A".data "5".data ["Dark".data, "Upper".data]
    (by decide) (by decide) (by decide) (by decide) (by decide) (by decide)
    (by decide)

/-- **C6 (counterexample).** On `"a - b - c - d"` the split yields four
parts and `part[1] = "b"` is not a digit string, so the claim predicts the
plain fallback `(None, None, ["a - b - c - d"])`; the code instead accepts
any split of at least 3 parts with no digit check, returning key `"a"`,
rating `"b"`, and tags `["c"]` with the fourth part discarded. -/
theorem decode_shape_counterexample :
    getTagListComment "a - b - c - d".data =
      ⟨some "a".data, some "b".data, ["c".data]⟩ ∧
      (⟨some "a".data, some "b".data, ["c".data]⟩ : TagListResult) ≠
        ⟨none, none, ["a - b - c - d".data]⟩ := by
  refine ⟨?_, ?_⟩ <;> decide

/-- **C6 (amended).** Decode recognizes a composite comment exactly when
splitting the raw string on the literal `" - "` yields **at least** 3 parts
(there is no digit check on `part[1]`); in that case key = part[0],
rating = part[1] taken verbatim as a string, and tags = part[2] split on
commas with each piece trimmed, any parts beyond the third being discarded.
For every other shape Decode falls back to a plain comma-split tag list with
no key and no rating. -/
theorem decode_shape (text : PyStr) :
    getTagListComment text =
      match splitDash text with
      | p0 :: p1 :: p2 :: _ =>
        ⟨some p0, some p1, (splitComma p2).map pyStrip⟩
      | _ => ⟨none, none, (splitComma text).map pyStrip⟩ := by
  by_cases hc : containsSeq sepDash text = true
  · rw [getTagListComment.eq_def, if_pos hc]
    rcases hp : splitDash text with _ | ⟨p0, _ | ⟨p1, _ | ⟨p2, rest⟩⟩⟩
    · exact absurd hp (splitDash_ne_nil text)
    · simp only [hp]
      rw [if_neg (by simp)]
    · simp only [hp]
      rw [if_neg (by simp)]
    · simp only [hp]
      rw [if_pos (by simp)]
      simp [List.getD, List.get?]
  · have hfalse : containsSeq sepDash text = false := by
      rw [Bool.not_eq_true] at hc
      exact hc
    rw [getTagListComment.eq_def, if_neg (by simp [hfalse]),
      splitDash_no_sep text hfalse]
